import Mathlib

/-!
Shallow embedding of the Fushimi In-Airy audio effect engine
(multi-tap delay and Schroeder reverb) and proofs about it.

Samples, gains and times are modelled as exact rationals; the two
real-exponent conversions of the Python source (`10 ** (gain_db / 20)`
and the RT60 feedback gain `10 ** (-3*D/(decay_sec*fs))`) are not
rational-valued in general, so the engine definitions take them as
explicit function parameters, and the RT60 bound is stated over `ℝ`
with the (computable, rational) exponent defined from the source.
-/

/-- Python `int()` applied to a float/rational: truncation toward zero,
i.e. truncating division of the reduced numerator by the denominator
(`math.floor` for nonnegative values, `math.ceil` for negative ones).
Used by the source for every ms→samples conversion. -/
def pyInt (q : ℚ) : ℤ :=
  q.num.tdiv q.den

/-- `int(sample_rate * (ms / 1000.0))`: millisecond value converted to a
sample count, as in `reverb_engine.parallel_comb_filters` (line 74),
`serial_allpass_filters` (line 93) and the tap shift of
`fushimi_plugin.apply_multi_tap_delay` (line 28). -/
def msToSamples (fs ms : ℚ) : ℤ :=
  pyInt (fs * (ms / 1000))

/-- `int(sample_rate * (max_delay_ms / 1000.0) + (sample_rate * 0.5))`:
tail length of `fushimi_plugin.apply_multi_tap_delay` (line 15). -/
def delayTailSamples (fs maxMs : ℚ) : ℤ :=
  pyInt (fs * (maxMs / 1000) + fs * (1 / 2))

/-- `int(self.fs * (max_delay / 1000.0) + self.fs)`: tail length of
`DelayV1.ToriDelayPlugin.apply_dsp` (line 129). -/
def delayV1TailSamples (fs maxMs : ℚ) : ℤ :=
  pyInt (fs * (maxMs / 1000) + fs)

/-- `int(sample_rate * (max_decay_ms / 1000.0) * tail_factor)`: tail
length of `reverb_engine.apply_multi_instance_reverb` (line 181). -/
def reverbTailSamples (fs maxDecayMs tailFactor : ℚ) : ℤ :=
  pyInt (fs * (maxDecayMs / 1000) * tailFactor)

/-- `np.clip(a, lo, hi)`: numpy clamps by `min(max(a, lo), hi)`. -/
def npClip (a lo hi : ℚ) : ℚ :=
  min (max a lo) hi

/-- Indexing with default 0, the value a numpy read yields inside the
allocated buffer (all buffers start as `np.zeros`). -/
def nth (l : List ℚ) (n : ℕ) : ℚ :=
  l.getD n 0

/-- `output[start : start + len(xs)] += xs`: pointwise addition of `xs`
into `out` beginning at index `start`, leaving `out`'s length unchanged.
(When `start + len(xs)` exceeds `len(out)` numpy would raise a broadcast
error; this model silently drops the excess, and the bounds theorems
show the source never reaches that case.) -/
def addInto : List ℚ → ℕ → List ℚ → List ℚ
  | out, _, [] => out
  | [], _, _ => []
  | o :: os, 0, x :: xs => (o + x) :: addInto os 0 xs
  | o :: os, s + 1, xs => o :: addInto os s xs

/-- Python `max(list)`: `none` on the empty list (where Python raises
`ValueError`). -/
def listMax : List ℚ → Option ℚ
  | [] => none
  | a :: as => some (as.foldl max a)

/-- `np.max(np.abs(signal))`: peak absolute amplitude. (On an empty
buffer numpy raises; the model returns 0, and the theorems that depend
on the peak of a possibly-empty buffer carry a nonemptiness hypothesis.) -/
def maxAbs (l : List ℚ) : ℚ :=
  l.foldr (fun v m => max |v| m) 0

/-- The peak normalization shared by `fushimi_plugin.apply_multi_tap_delay`
(lines 36-39) and `reverb_engine.apply_multi_instance_reverb`
(lines 208-212): divide every sample by the peak iff the peak exceeds 1. -/
def normalizePeak (l : List ℚ) : List ℚ :=
  if 1 < maxAbs l then l.map (· / maxAbs l) else l

/-- The normalization of `DelayV1.ToriDelayPlugin.apply_dsp`
(lines 143-148): same peak division, behind an additional
`peak > 0.001` silence guard. -/
def normalizeV1 (l : List ℚ) : List ℚ :=
  if 1 / 1000 < maxAbs l then
    (if 1 < maxAbs l then l.map (· / maxAbs l) else l)
  else l

/-- One pass of the circular-buffer filter loop shared by
`reverb_engine.comb_filter` and `reverb_engine.allpass_filter`
(lines 22-33 and 49-60): at each input sample, read `delayed` from the
ring buffer at the cursor, emit `readOut x delayed`, overwrite the
cursor cell with `writeBuf x y`, and advance the cursor modulo `D`. -/
def filtLoop (readOut writeBuf : ℚ → ℚ → ℚ) (D : ℕ) :
    List ℚ → List ℚ → ℕ → List ℚ
  | [], _, _ => []
  | x :: xs, buf, idx =>
    let delayed := nth buf idx
    let y := readOut x delayed
    y :: filtLoop readOut writeBuf D xs (buf.set idx (writeBuf x y)) ((idx + 1) % D)

/-- `reverb_engine.comb_filter` (lines 38-62): `y[n] = x[n] + g*y[n-D]`
over a circular buffer of `delay_samples` zeros; the cell is overwritten
with the output sample itself (line 57). -/
def comb_filter (x : List ℚ) (D : ℕ) (g : ℚ) : List ℚ :=
  filtLoop (fun xi delayed => xi + g * delayed) (fun _ yi => yi) D x
    (List.replicate D 0) 0

/-- `reverb_engine.allpass_filter` (lines 9-35):
`y[n] = -g*x[n] + (x[n-D] + g*y[n-D])` over the same circular-buffer
mechanics; the cell is overwritten with `x[n] + g*y[n]` (line 30). -/
def allpass_filter (x : List ℚ) (D : ℕ) (g : ℚ) : List ℚ :=
  filtLoop (fun xi delayed => -g * xi + delayed) (fun xi yi => xi + g * yi) D x
    (List.replicate D 0) 0

/-- Schroeder's comb delays in ms, `reverb_engine.schroeder_reverb`
line 131: `[29.7, 37.1, 41.1, 43.7]`. -/
def schroederCombDelaysMs : List ℚ :=
  [297 / 10, 371 / 10, 411 / 10, 437 / 10]

/-- Allpass delays in ms, `reverb_engine.schroeder_reverb` line 134:
`[5.0, 1.7]`. -/
def schroederAllpassDelaysMs : List ℚ :=
  [5, 17 / 10]

/-- `np.mean(comb_delays)` for the fixed Schroeder comb delays. -/
def meanCombDelayMs : ℚ :=
  schroederCombDelaysMs.sum / (schroederCombDelaysMs.length : ℚ)

/-- `int(sample_rate * np.mean(comb_delays) / 1000.0)`,
`reverb_engine.schroeder_reverb` line 138. -/
def avgCombDelaySamples (fs : ℚ) : ℤ :=
  pyInt (fs * meanCombDelayMs / 1000)

/-- The (exact, rational) exponent of the RT60 feedback-gain formula
`10 ** (-3.0 * avg_comb_delay_samples / (decay_time_sec * sample_rate))`,
`reverb_engine.schroeder_reverb` lines 139-140. -/
def schroederGainExponent (fs decayMs : ℚ) : ℚ :=
  -3 * (avgCombDelaySamples fs : ℚ) / ((decayMs / 1000) * fs)

/-- `reverb_engine.parallel_comb_filters` (lines 64-81): sum the comb
filter outputs over the delay table, skipping nonpositive delay lengths,
then divide by the table length. -/
def parallel_comb_filters (input : List ℚ) (fs : ℚ) (delaysMs : List ℚ)
    (g : ℚ) : List ℚ :=
  (delaysMs.foldl
      (fun acc ms =>
        let D := (msToSamples fs ms).toNat
        if 0 < D then List.zipWith (· + ·) acc (comb_filter input D g) else acc)
      (List.replicate input.length 0)).map
    (· / (delaysMs.length : ℚ))

/-- `reverb_engine.serial_allpass_filters` (lines 83-97): feed the signal
through one allpass per table entry, skipping nonpositive delay lengths. -/
def serial_allpass_filters (input : List ℚ) (fs : ℚ) (delaysMs : List ℚ)
    (g : ℚ) : List ℚ :=
  delaysMs.foldl
    (fun sig ms =>
      let D := (msToSamples fs ms).toNat
      if 0 < D then allpass_filter sig D g else sig)
    input

/-- `reverb_engine.schroeder_reverb` (lines 117-158) with the feedback
gain as an explicit parameter: the source computes it as
`min(10 ** schroederGainExponent fs decay_ms, 0.98)`, a real-exponent
power that is not rational-valued in general, so it is passed in and
characterized separately. Allpass gain is the source's fixed 0.7. -/
def schroeder_reverb (feedbackGain : ℚ) (input : List ℚ) (fs : ℚ)
    (initialGain : ℚ) : List ℚ :=
  serial_allpass_filters
    (parallel_comb_filters (input.map (· * initialGain)) fs
      schroederCombDelaysMs feedbackGain)
    fs schroederAllpassDelaysMs (7 / 10)

/-- `fushimi_plugin.apply_multi_tap_delay` (lines 9-41), with the
dB→linear conversion `10 ** (gain_db / 20)` as parameter `dbToLin`.
Returns `none` when `taps` is empty, where Python's `max([])` raises
`ValueError` (line 14). A tap is a `(time_ms, gain_db)` pair. -/
def apply_multi_tap_delay (dbToLin : ℚ → ℚ) (input : List ℚ) (fs : ℚ)
    (taps : List (ℚ × ℚ)) (dryMix : ℚ) : Option (List ℚ) :=
  match listMax (taps.map (·.1)) with
  | none => none
  | some maxMs =>
    let total := input.length + (delayTailSamples fs maxMs).toNat
    let base := addInto (List.replicate total 0) 0 (input.map (· * dryMix))
    let summed := taps.foldl
      (fun acc tap =>
        addInto acc (msToSamples fs tap.1).toNat
          (input.map (· * dbToLin tap.2)))
      base
    some (normalizePeak summed)

/-- `reverb_engine.apply_multi_instance_reverb` (lines 161-214), with the
dB→linear conversion and the per-gate RT60 feedback gain (both
real-exponent powers in the source) as parameters. Returns `none` when
`gates` is empty, where Python's `max([])` raises `ValueError`
(line 180). A gate is a `(decay_ms, gain_db)` pair; per gate the linear
gain is clipped to `[0, 1]` (line 197) and the reverb signal is added
over the first `min(len(reverb), total)` samples (lines 203-204). -/
def apply_multi_instance_reverb (dbToLin : ℚ → ℚ) (fbGainOf : ℚ → ℚ → ℚ)
    (input : List ℚ) (fs : ℚ) (gates : List (ℚ × ℚ)) (dryMix : ℚ)
    (tailFactor : ℚ) : Option (List ℚ) :=
  match listMax (gates.map (·.1)) with
  | none => none
  | some maxDecayMs =>
    let total := input.length + (reverbTailSamples fs maxDecayMs tailFactor).toNat
    let base := addInto (List.replicate total 0) 0 (input.map (· * dryMix))
    let summed := gates.foldl
      (fun acc gate =>
        let lin := npClip (dbToLin gate.2) 0 1
        addInto acc 0 ((schroeder_reverb (fbGainOf fs gate.1) input fs lin).take total))
      base
    some (normalizePeak summed)

/-- `DelayV1.ToriDelayPlugin.apply_dsp` (lines 127-148): like the
multi-tap delay, but the empty-tap max is guarded by `if taps else 0`
(line 128), the tail margin is a full second of samples (line 129), the
master wet mix scales each tap gain (line 138), each tap is skipped
unless `shift + len(input) < len(output)` (line 140), and normalization
carries the `peak > 0.001` guard. Total function (never errors). -/
def apply_dsp (dbToLin : ℚ → ℚ) (input : List ℚ) (fs : ℚ)
    (taps : List (ℚ × ℚ)) (dryMix wetMix : ℚ) : List ℚ :=
  let maxMs := match listMax (taps.map (·.1)) with
    | none => 0
    | some m => m
  let total := input.length + (delayV1TailSamples fs maxMs).toNat
  let base := addInto (List.replicate total 0) 0 (input.map (· * dryMix))
  let summed := taps.foldl
    (fun acc tap =>
      let gain := dbToLin tap.2 * wetMix
      let shift := (msToSamples fs tap.1).toNat
      if shift + input.length < total then
        addInto acc shift (input.map (· * gain))
      else acc)
    base
  normalizeV1 summed

/-- `fushimi_plugin_demo.FushimiInAiryGUI.apply_reverb_dsp`
(lines 287-316): keep only gates with `gain_db > -50`; if none survive,
return the input unchanged; otherwise run the engine with `dry_mix=0.0`,
rebuild the dry+wet mix and re-normalize. -/
def apply_reverb_dsp (dbToLin : ℚ → ℚ) (fbGainOf : ℚ → ℚ → ℚ)
    (input : List ℚ) (fs : ℚ) (gates : List (ℚ × ℚ)) (dryMix wetMix : ℚ)
    (tailFactor : ℚ) : Option (List ℚ) :=
  let active := gates.filter (fun g => -50 < g.2)
  if active.isEmpty then some input
  else
    match apply_multi_instance_reverb dbToLin fbGainOf input fs active 0 tailFactor with
    | none => none
    | some full =>
      let out := List.zipWith (· + ·)
        (addInto (List.replicate full.length 0) 0 (input.map (· * dryMix)))
        (full.map (· * wetMix))
      some (normalizePeak out)

/-- `fushimi_plugin.FushimiInAiry.process_audio` (lines 143-172) in delay
mode: return the input unchanged when the gate list is empty
(lines 147-149), otherwise run the multi-tap delay and multiply the
whole returned buffer by `wet_mix` (line 172). -/
def process_audio_delay (dbToLin : ℚ → ℚ) (input : List ℚ) (fs : ℚ)
    (taps : List (ℚ × ℚ)) (dryMix wetMix : ℚ) : Option (List ℚ) :=
  if taps.isEmpty then some input
  else
    (apply_multi_tap_delay dbToLin input fs taps dryMix).map
      (fun out => out.map (· * wetMix))

/-- `fushimi_plugin.figma_to_delay_params` (lines 44-81), with
`np.log10` as parameter `log10` (transcendental). Returns the
`(time_ms, gain_db)` tap. Defaults in the source:
`max_time_ms=4000, max_gain_db=3.5, min_gain_db=-60`. -/
def figma_to_delay_params (log10 : ℚ → ℚ) (x y frameW frameH : ℚ)
    (maxTimeMs maxGainDb minGainDb : ℚ) : ℚ × ℚ :=
  let xNorm := npClip (x / frameW) 0 1
  let yNorm := npClip (y / frameH) 0 1
  let timeMs := xNorm * maxTimeMs
  let volumePercent := (1 - yNorm) * 150
  let gainDb :=
    if volumePercent ≤ 1 / 10 then minGainDb
    else npClip (20 * log10 (volumePercent / 100)) minGainDb maxGainDb
  (timeMs, gainDb)

/-- `figma_reverb.figma_to_reverb_params` (lines 3-49), with `np.log10`
as parameter. Returns the `(decay_ms, gain_db)` gate. Defaults in the
source: `max_decay_ms=10000, max_gain_db=0, min_gain_db=-60`; the volume
scale is 0-100% (versus 0-150% in delay mode). -/
def figma_to_reverb_params (log10 : ℚ → ℚ) (x y frameW frameH : ℚ)
    (maxDecayMs maxGainDb minGainDb : ℚ) : ℚ × ℚ :=
  let xNorm := npClip (x / frameW) 0 1
  let yNorm := npClip (y / frameH) 0 1
  let decayMs := xNorm * maxDecayMs
  let volumePercent := (1 - yNorm) * 100
  let gainDb :=
    if volumePercent ≤ 1 / 10 then minGainDb
    else npClip (20 * log10 (volumePercent / 100)) minGainDb maxGainDb
  (decayMs, gainDb)

/-- Constant stand-in for the dB→linear conversion `10 ** (gain_db/20)`
when it is evaluated only at `gain_db = 0`, where the true value is
exactly `10 ^ 0 = 1`. -/
def linGainOne : ℚ → ℚ := fun _ => 1

/-- Constant stand-in for the dB→linear conversion `10 ** (gain_db/20)`
when it is evaluated only at `gain_db = -60`, where the true value is
exactly `10 ^ (-3) = 1/1000`. -/
def linGainMilli : ℚ → ℚ := fun _ => 1 / 1000

/-- Constant stand-in for the RT60 feedback gain
`min(10 ** schroederGainExponent fs decay_ms, 0.98)` when it is
evaluated only at `fs = 1000`, `decay_ms = 111`, where
`avgCombDelaySamples 1000 = 37`, the exponent is exactly `-1`, and the
true gain is exactly `10 ^ (-1) = 1/10`. -/
def fbGainTenth : ℚ → ℚ → ℚ := fun _ _ => 1 / 10

/-- Constant stand-in for the RT60 feedback gain used where its value is
irrelevant to the stated property (a generic admissible gain 1/2). -/
def fbGainHalf : ℚ → ℚ → ℚ := fun _ _ => 1 / 2

/-- Constant stand-in for `np.log10`, used where the stated property
holds for every choice of the logarithm (the mapper clamps its result). -/
def log10Zero : ℚ → ℚ := fun _ => 0

theorem pyInt_eq_floor (q : ℚ) (h : 0 ≤ q) : pyInt q = ⌊q⌋ := by
  unfold pyInt
  rw [Rat.floor_def]
  exact Int.tdiv_eq_ediv (Rat.num_nonneg.mpr h) (Int.natCast_nonneg q.den)

theorem nth_nil (n : ℕ) : nth [] n = 0 := by
  simp [nth]

theorem nth_cons_zero (a : ℚ) (l : List ℚ) : nth (a :: l) 0 = a := by
  simp [nth]

theorem nth_cons_succ (a : ℚ) (l : List ℚ) (n : ℕ) :
    nth (a :: l) (n + 1) = nth l n := by
  simp [nth]

theorem nth_eq_zero_of_le (l : List ℚ) (n : ℕ) (h : l.length ≤ n) :
    nth l n = 0 := by
  induction l generalizing n with
  | nil => exact nth_nil n
  | cons a t ih =>
    cases n with
    | zero => simp at h
    | succ m =>
      rw [nth_cons_succ]
      exact ih m (by simpa using h)

theorem nth_replicate (k n : ℕ) : nth (List.replicate k (0 : ℚ)) n = 0 := by
  induction k generalizing n with
  | zero => exact nth_nil n
  | succ m ih =>
    cases n with
    | zero => simp [List.replicate, nth_cons_zero]
    | succ j => simp only [List.replicate, nth_cons_succ]; exact ih j

theorem nth_append_left (a b : List ℚ) (n : ℕ) (h : n < a.length) :
    nth (a ++ b) n = nth a n := by
  induction a generalizing n with
  | nil => simp at h
  | cons x t ih =>
    cases n with
    | zero => simp [nth_cons_zero]
    | succ m =>
      simp only [List.cons_append, nth_cons_succ]
      exact ih m (by simpa using h)

theorem nth_append_right (a b : List ℚ) (n : ℕ) :
    nth (a ++ b) (a.length + n) = nth b n := by
  induction a with
  | nil => simp
  | cons x t ih =>
    simpa [List.cons_append, Nat.succ_add, nth_cons_succ] using ih

theorem nth_set_self (l : List ℚ) (i : ℕ) (v : ℚ) (h : i < l.length) :
    nth (l.set i v) i = v := by
  induction l generalizing i with
  | nil => simp at h
  | cons a t ih =>
    cases i with
    | zero => simp [List.set, nth_cons_zero]
    | succ m =>
      simp only [List.set, nth_cons_succ]
      exact ih m (by simpa using h)

theorem nth_set_ne (l : List ℚ) (i j : ℕ) (v : ℚ) (h : i ≠ j) :
    nth (l.set i v) j = nth l j := by
  induction l generalizing i j with
  | nil => simp [List.set]
  | cons a t ih =>
    cases i with
    | zero =>
      cases j with
      | zero => exact absurd rfl h
      | succ m => simp [List.set, nth_cons_succ]
    | succ k =>
      cases j with
      | zero => simp [List.set, nth_cons_zero]
      | succ m =>
        simp only [List.set, nth_cons_succ]
        exact ih k m (fun hk => h (by rw [hk]))

theorem length_set (l : List ℚ) (i : ℕ) (v : ℚ) :
    (l.set i v).length = l.length := by
  simp

theorem nth_map_mul (l : List ℚ) (c : ℚ) (n : ℕ) :
    nth (l.map (· * c)) n = nth l n * c := by
  induction l generalizing n with
  | nil => simp [nth]
  | cons a t ih =>
    cases n with
    | zero => simp [nth_cons_zero]
    | succ m => simpa [nth_cons_succ] using ih m

theorem addInto_length (out : List ℚ) (s : ℕ) (xs : List ℚ) :
    (addInto out s xs).length = out.length := by
  induction out generalizing s xs with
  | nil => cases xs <;> simp [addInto]
  | cons o os ih =>
    cases xs with
    | nil => simp [addInto]
    | cons x ys =>
      cases s with
      | zero => simp [addInto, ih]
      | succ m => simp [addInto, ih]

theorem nth_addInto (out : List ℚ) (s : ℕ) (xs : List ℚ) (i : ℕ) :
    nth (addInto out s xs) i =
      nth out i +
        (if s ≤ i ∧ i < s + xs.length ∧ i < out.length then nth xs (i - s)
         else 0) := by
  induction out generalizing s xs i with
  | nil =>
    cases xs with
    | nil => simp [addInto]
    | cons x ys => simp [addInto, nth_nil]
  | cons o os ih =>
    cases xs with
    | nil => simp [addInto, nth_nil]
    | cons x ys =>
      cases s with
      | zero =>
        cases i with
        | zero => simp [addInto, nth_cons_zero]
        | succ m =>
          simp only [addInto, nth_cons_succ]
          rw [ih 0 ys m]
          have hiff : (0 ≤ m ∧ m < 0 + ys.length ∧ m < os.length) ↔
              (0 ≤ m + 1 ∧ m + 1 < 0 + (x :: ys).length ∧
                m + 1 < (o :: os).length) := by
            simp [Nat.succ_lt_succ_iff]
          by_cases hc : 0 ≤ m ∧ m < 0 + ys.length ∧ m < os.length
          · rw [if_pos hc, if_pos (hiff.mp hc)]
            simp [nth_cons_succ]
          · rw [if_neg hc, if_neg (fun hh => hc (hiff.mpr hh))]
      | succ k =>
        cases i with
        | zero => simp [addInto, nth_cons_zero]
        | succ m =>
          simp only [addInto, nth_cons_succ]
          rw [ih k (x :: ys) m]
          have hiff : (k ≤ m ∧ m < k + (x :: ys).length ∧ m < os.length) ↔
              (k + 1 ≤ m + 1 ∧ m + 1 < k + 1 + (x :: ys).length ∧
                m + 1 < (o :: os).length) := by
            simp only [List.length_cons]
            omega
          by_cases hc : k ≤ m ∧ m < k + (x :: ys).length ∧ m < os.length
          · rw [if_pos hc, if_pos (hiff.mp hc)]
            have hsub : m + 1 - (k + 1) = m - k := by omega
            rw [hsub]
          · rw [if_neg hc, if_neg (fun hh => hc (hiff.mpr hh))]

theorem maxAbs_nonneg (l : List ℚ) : 0 ≤ maxAbs l := by
  induction l with
  | nil => simp [maxAbs]
  | cons a t ih =>
    simp only [maxAbs, List.foldr]
    exact le_max_of_le_right ih

theorem abs_nth_le_maxAbs (l : List ℚ) (n : ℕ) : |nth l n| ≤ maxAbs l := by
  induction l generalizing n with
  | nil => simp [nth, maxAbs]
  | cons a t ih =>
    cases n with
    | zero =>
      rw [nth_cons_zero]
      exact le_max_left _ _
    | succ m =>
      rw [nth_cons_succ]
      exact le_trans (ih m) (le_max_right _ _)

theorem maxAbs_le_of_forall_nth (l : List ℚ) (c : ℚ) (h0 : 0 ≤ c)
    (h : ∀ n, |nth l n| ≤ c) : maxAbs l ≤ c := by
  induction l with
  | nil => simpa [maxAbs] using h0
  | cons a t ih =>
    simp only [maxAbs, List.foldr]
    refine max_le ?_ ?_
    · simpa [nth_cons_zero] using h 0
    · exact ih (fun n => by simpa [nth_cons_succ] using h (n + 1))

theorem maxAbs_map_div (l : List ℚ) (p : ℚ) (hp : 0 < p) :
    maxAbs (l.map (· / p)) = maxAbs l / p := by
  induction l with
  | nil => simp [maxAbs]
  | cons a t ih =>
    simp only [maxAbs, List.map, List.foldr] at *
    rw [ih, abs_div, abs_of_pos hp, ← max_div_div_right (le_of_lt hp)]

theorem normalizePeak_length (l : List ℚ) :
    (normalizePeak l).length = l.length := by
  unfold normalizePeak
  split <;> simp

theorem normalizePeak_of_le (l : List ℚ) (h : maxAbs l ≤ 1) :
    normalizePeak l = l := by
  unfold normalizePeak
  rw [if_neg (not_lt_of_le h)]

theorem normalizePeak_of_gt (l : List ℚ) (h : 1 < maxAbs l) :
    normalizePeak l = l.map (· / maxAbs l) := by
  unfold normalizePeak
  rw [if_pos h]

theorem maxAbs_normalizePeak_le_one (l : List ℚ) :
    maxAbs (normalizePeak l) ≤ 1 := by
  by_cases h : 1 < maxAbs l
  · rw [normalizePeak_of_gt l h, maxAbs_map_div l _ (lt_trans one_pos h)]
    rw [div_le_one (lt_trans one_pos h)]
  · rw [normalizePeak_of_le l (le_of_not_lt h)]
    exact le_of_not_lt h

theorem maxAbs_normalizePeak_eq_one (l : List ℚ) (h : 1 < maxAbs l) :
    maxAbs (normalizePeak l) = 1 := by
  rw [normalizePeak_of_gt l h, maxAbs_map_div l _ (lt_trans one_pos h)]
  exact div_self (ne_of_gt (lt_trans one_pos h))

theorem normalizeV1_eq_normalizePeak (l : List ℚ) :
    normalizeV1 l = normalizePeak l := by
  unfold normalizeV1 normalizePeak
  by_cases h1 : 1 < maxAbs l
  · have h2 : (1 : ℚ) / 1000 < maxAbs l := lt_trans (by norm_num) h1
    rw [if_pos h2, if_pos h1]
  · rw [if_neg h1]
    split <;> rfl

theorem le_foldl_max (as : List ℚ) (a : ℚ) : a ≤ as.foldl max a := by
  induction as generalizing a with
  | nil => exact le_refl a
  | cons b bs ih => exact le_trans (le_max_left a b) (ih (max a b))

theorem mem_le_foldl_max (as : List ℚ) (a x : ℚ) (h : x ∈ as) :
    x ≤ as.foldl max a := by
  induction as generalizing a with
  | nil => cases h
  | cons b bs ih =>
    rcases List.mem_cons.mp h with rfl | hmem
    · exact le_trans (le_max_right a x) (le_foldl_max bs _)
    · exact ih _ hmem

theorem listMax_is_ub (l : List ℚ) (m : ℚ) (h : listMax l = some m) :
    ∀ x ∈ l, x ≤ m := by
  cases l with
  | nil => simp [listMax] at h
  | cons a as =>
    simp only [listMax, Option.some.injEq] at h
    intro x hx
    rcases List.mem_cons.mp hx with rfl | hmem
    · exact h ▸ le_foldl_max as x
    · exact h ▸ mem_le_foldl_max as a x hmem

theorem foldl_length_preserved {α : Type} (f : List ℚ → α → List ℚ)
    (h : ∀ acc t, (f acc t).length = acc.length) (ts : List α)
    (acc : List ℚ) : (ts.foldl f acc).length = acc.length := by
  induction ts generalizing acc with
  | nil => rfl
  | cons t ts ih => rw [List.foldl_cons, ih, h]

theorem addInto_of_zero (acc : List ℚ) (s : ℕ) (xs : List ℚ)
    (h : ∀ x ∈ xs, x = 0) : addInto acc s xs = acc := by
  induction acc generalizing s xs with
  | nil => cases xs <;> simp [addInto]
  | cons o os ih =>
    cases xs with
    | nil => simp [addInto]
    | cons x ys =>
      cases s with
      | zero =>
        simp only [addInto]
        rw [h x (List.mem_cons_self x ys), add_zero,
          ih 0 ys (fun z hz => h z (List.mem_cons_of_mem x hz))]
      | succ m =>
        simp only [addInto]
        rw [ih m (x :: ys) h]

theorem apply_multi_tap_delay_some (dbToLin : ℚ → ℚ) (input : List ℚ)
    (fs : ℚ) (taps : List (ℚ × ℚ)) (dryMix maxMs : ℚ)
    (hmax : listMax (taps.map (·.1)) = some maxMs) :
    ∃ out, apply_multi_tap_delay dbToLin input fs taps dryMix = some out ∧
      out.length = input.length + (delayTailSamples fs maxMs).toNat := by
  unfold apply_multi_tap_delay
  rw [hmax]
  refine ⟨_, rfl, ?_⟩
  rw [normalizePeak_length,
    foldl_length_preserved _ (fun acc t => addInto_length acc _ _) taps _,
    addInto_length, List.length_replicate]

theorem apply_multi_instance_reverb_some (dbToLin : ℚ → ℚ)
    (fbGainOf : ℚ → ℚ → ℚ) (input : List ℚ) (fs : ℚ)
    (gates : List (ℚ × ℚ)) (dryMix tailFactor maxDecayMs : ℚ)
    (hmax : listMax (gates.map (·.1)) = some maxDecayMs) :
    ∃ out,
      apply_multi_instance_reverb dbToLin fbGainOf input fs gates dryMix
          tailFactor = some out ∧
      out.length =
        input.length + (reverbTailSamples fs maxDecayMs tailFactor).toNat := by
  unfold apply_multi_instance_reverb
  rw [hmax]
  refine ⟨_, rfl, ?_⟩
  rw [normalizePeak_length,
    foldl_length_preserved _ (fun acc t => addInto_length acc _ _) gates _,
    addInto_length, List.length_replicate]

theorem filtLoop_invariant (ro wb : ℚ → ℚ → ℚ) (D : ℕ) (hD : 0 < D) :
    ∀ (xs past ys buf : List ℚ),
      past.length = ys.length →
      buf.length = D →
      (∀ m, m < ys.length → ys.length ≤ m + D →
        nth buf (m % D) = wb (nth past m) (nth ys m)) →
      (∀ j, ys.length ≤ j → j < D → nth buf j = 0) →
      (filtLoop ro wb D xs buf (ys.length % D)).length = xs.length ∧
      ∀ i, i < xs.length →
        nth (ys ++ filtLoop ro wb D xs buf (ys.length % D)) (ys.length + i) =
          ro (nth (past ++ xs) (ys.length + i))
            (if D ≤ ys.length + i then
              wb (nth (past ++ xs) (ys.length + i - D))
                (nth (ys ++ filtLoop ro wb D xs buf (ys.length % D))
                  (ys.length + i - D))
            else 0) := by
  intro xs
  induction xs with
  | nil =>
    intro past ys buf _ _ _ _
    exact ⟨rfl, fun i hi => absurd hi (Nat.not_lt_zero i)⟩
  | cons x xs ih =>
    intro past ys buf hlen hbuf hwin hzero
    have hidx : (ys.length % D + 1) % D = (ys.length + 1) % D := by
      have hmm : ys.length % D % D = ys.length % D :=
        Nat.mod_mod_of_dvd ys.length (dvd_refl D)
      rw [Nat.add_mod ys.length 1 D, Nat.add_mod (ys.length % D) 1 D, hmm]
    have hdel : nth buf (ys.length % D) =
        (if D ≤ ys.length then
          wb (nth past (ys.length - D)) (nth ys (ys.length - D))
        else 0) := by
      by_cases hDn : D ≤ ys.length
      · rw [if_pos hDn]
        have hmod : ys.length % D = (ys.length - D) % D := Nat.mod_eq_sub_mod hDn
        rw [hmod]
        exact hwin (ys.length - D) (by omega) (by omega)
      · rw [if_neg hDn]
        have hlt : ys.length < D := Nat.lt_of_not_le hDn
        rw [Nat.mod_eq_of_lt hlt]
        exact hzero ys.length (le_refl _) hlt
    have hunfold : filtLoop ro wb D (x :: xs) buf (ys.length % D) =
        ro x (nth buf (ys.length % D)) ::
          filtLoop ro wb D xs
            (buf.set (ys.length % D) (wb x (ro x (nth buf (ys.length % D)))))
            ((ys.length % D + 1) % D) := rfl
    have hlen' : (past ++ [x]).length =
        (ys ++ [ro x (nth buf (ys.length % D))]).length := by
      simp [hlen]
    have hbuf' :
        (buf.set (ys.length % D)
          (wb x (ro x (nth buf (ys.length % D))))).length = D := by
      rw [length_set, hbuf]
    have hwin' : ∀ m, m < (ys ++ [ro x (nth buf (ys.length % D))]).length →
        (ys ++ [ro x (nth buf (ys.length % D))]).length ≤ m + D →
        nth (buf.set (ys.length % D) (wb x (ro x (nth buf (ys.length % D)))))
            (m % D) =
          wb (nth (past ++ [x]) m)
            (nth (ys ++ [ro x (nth buf (ys.length % D))]) m) := by
      intro m hm1 hm2
      simp only [List.length_append, List.length_cons, List.length_nil] at hm1 hm2
      by_cases hmn : m = ys.length
      · rw [hmn]
        have hmlt : ys.length % D < buf.length := by
          rw [hbuf]
          exact Nat.mod_lt ys.length hD
        rw [nth_set_self _ _ _ hmlt]
        have hpx : nth (past ++ [x]) ys.length = x := by
          rw [← hlen]
          exact (nth_append_right past [x] 0).trans (nth_cons_zero x [])
        have hyy : nth (ys ++ [ro x (nth buf (ys.length % D))]) ys.length =
            ro x (nth buf (ys.length % D)) :=
          (nth_append_right ys [ro x (nth buf (ys.length % D))] 0).trans
            (nth_cons_zero _ _)
        rw [hpx, hyy]
      · have hmlt : m < ys.length := by omega
        have hneq : ys.length % D ≠ m % D := by
          intro heq
          have hmod : m ≡ ys.length [MOD D] := heq.symm
          have hdvd : D ∣ ys.length - m :=
            (Nat.modEq_iff_dvd' (le_of_lt hmlt)).mp hmod
          have hle := Nat.le_of_dvd (by omega) hdvd
          omega
        rw [nth_set_ne _ _ _ _ hneq]
        rw [nth_append_left past [x] m (by omega)]
        rw [nth_append_left ys [ro x (nth buf (ys.length % D))] m hmlt]
        exact hwin m hmlt (by omega)
    have hzero' : ∀ j,
        (ys ++ [ro x (nth buf (ys.length % D))]).length ≤ j → j < D →
        nth (buf.set (ys.length % D) (wb x (ro x (nth buf (ys.length % D))))) j
          = 0 := by
      intro j hj1 hj2
      simp only [List.length_append, List.length_cons, List.length_nil] at hj1
      have hneq : ys.length % D ≠ j := by
        have hml := Nat.mod_le ys.length D
        omega
      rw [nth_set_ne _ _ _ _ hneq]
      exact hzero j (by omega) hj2
    have hih := ih (past ++ [x]) (ys ++ [ro x (nth buf (ys.length % D))])
      (buf.set (ys.length % D) (wb x (ro x (nth buf (ys.length % D)))))
      hlen' hbuf' hwin' hzero'
    have hlen1 : (ys ++ [ro x (nth buf (ys.length % D))]).length =
        ys.length + 1 := by
      simp
    rw [hlen1] at hih
    constructor
    · rw [hunfold]
      simp only [List.length_cons, hidx]
      rw [hih.1]
    · intro i hi
      rw [hunfold, hidx]
      cases i with
      | zero =>
        have hL : nth
            (ys ++ ro x (nth buf (ys.length % D)) ::
              filtLoop ro wb D xs
                (buf.set (ys.length % D)
                  (wb x (ro x (nth buf (ys.length % D)))))
                ((ys.length + 1) % D))
            (ys.length + 0) = ro x (nth buf (ys.length % D)) :=
          (nth_append_right ys
            (ro x (nth buf (ys.length % D)) ::
              filtLoop ro wb D xs
                (buf.set (ys.length % D)
                  (wb x (ro x (nth buf (ys.length % D)))))
                ((ys.length + 1) % D)) 0).trans (nth_cons_zero _ _)
        have hR : nth (past ++ x :: xs) (ys.length + 0) = x := by
          have e : ys.length + 0 = past.length := by omega
          rw [e]
          exact (nth_append_right past (x :: xs) 0).trans (nth_cons_zero _ _)
        rw [hL, hR]
        by_cases hDn : D ≤ ys.length
        · rw [if_pos (by omega : D ≤ ys.length + 0)]
          have e2 : ys.length + 0 - D = ys.length - D := by omega
          rw [e2]
          rw [nth_append_left past (x :: xs) _ (by omega)]
          rw [nth_append_left ys _ _ (by omega)]
          rw [hdel, if_pos hDn]
        · rw [if_neg (by omega : ¬ D ≤ ys.length + 0)]
          rw [hdel, if_neg hDn]
      | succ i' =>
        have harith : ys.length + (i' + 1) = ys.length + 1 + i' := by omega
        rw [harith]
        have hi' : i' < xs.length := by
          simp only [List.length_cons] at hi
          omega
        have h2 := hih.2 i' hi'
        have hout : (ys ++ [ro x (nth buf (ys.length % D))]) ++
            filtLoop ro wb D xs
              (buf.set (ys.length % D)
                (wb x (ro x (nth buf (ys.length % D)))))
              ((ys.length + 1) % D) =
            ys ++ ro x (nth buf (ys.length % D)) ::
              filtLoop ro wb D xs
                (buf.set (ys.length % D)
                  (wb x (ro x (nth buf (ys.length % D)))))
                ((ys.length + 1) % D) := by
          simp
        have hpx2 : (past ++ [x]) ++ xs = past ++ x :: xs := by
          simp
        rw [hout, hpx2] at h2
        exact h2

theorem filtLoop_closed (ro wb : ℚ → ℚ → ℚ) (D : ℕ) (hD : 0 < D)
    (x : List ℚ) :
    (filtLoop ro wb D x (List.replicate D 0) 0).length = x.length ∧
    ∀ n, n < x.length →
      nth (filtLoop ro wb D x (List.replicate D 0) 0) n =
        ro (nth x n)
          (if D ≤ n then
            wb (nth x (n - D))
              (nth (filtLoop ro wb D x (List.replicate D 0) 0) (n - D))
          else 0) := by
  have h := filtLoop_invariant ro wb D hD x [] [] (List.replicate D 0) rfl
    (List.length_replicate D 0)
    (by intro m hm; simp at hm)
    (fun j _ hj => nth_replicate D j)
  simpa using h

/-- C1: for every input signal, every delay length `D ≥ 1` and every
gain `g`, the comb filter returns an output of the input's length
satisfying `y[n] = x[n] + g*y[n-D]` (with `y[k] = 0` for `k < 0`, here
expressed by the `D ≤ n` guard), and the allpass filter returns an
output of the input's length satisfying
`y[n] = -g*x[n] + x[n-D] + g*y[n-D]` (with `x[k] = y[k] = 0` for
`k < 0`), despite both being implemented over a circular buffer with a
wrapping write cursor. -/
theorem comb_allpass_circular_buffer_correct (x : List ℚ) (D : ℕ) (g : ℚ)
    (hD : 1 ≤ D) :
    ((comb_filter x D g).length = x.length ∧
      ∀ n, n < x.length →
        nth (comb_filter x D g) n =
          nth x n +
            g * (if D ≤ n then nth (comb_filter x D g) (n - D) else 0)) ∧
    ((allpass_filter x D g).length = x.length ∧
      ∀ n, n < x.length →
        nth (allpass_filter x D g) n =
          -g * nth x n +
            ((if D ≤ n then nth x (n - D) else 0) +
              g * (if D ≤ n then nth (allpass_filter x D g) (n - D) else 0))) := by
  constructor
  · have h := filtLoop_closed (fun xi delayed => xi + g * delayed)
      (fun _ yi => yi) D hD x
    refine ⟨h.1, fun n hn => ?_⟩
    have h2 := h.2 n hn
    by_cases hDn : D ≤ n
    · rw [if_pos hDn] at h2 ⊢
      exact h2
    · rw [if_neg hDn] at h2 ⊢
      exact h2
  · have h := filtLoop_closed (fun xi delayed => -g * xi + delayed)
      (fun xi yi => xi + g * yi) D hD x
    refine ⟨h.1, fun n hn => ?_⟩
    have h2 := h.2 n hn
    by_cases hDn : D ≤ n
    · rw [if_pos hDn] at h2
      rw [if_pos hDn, if_pos hDn]
      exact h2
    · rw [if_neg hDn] at h2
      rw [if_neg hDn, if_neg hDn]
      calc nth (allpass_filter x D g) n = -g * nth x n + 0 := h2
        _ = -g * nth x n + (0 + g * 0) := by ring

theorem avgCombDelaySamples_nonneg (fs : ℚ) (hfs : 0 ≤ fs) :
    (0 : ℚ) ≤ (avgCombDelaySamples fs : ℚ) := by
  have hm : (0 : ℚ) ≤ meanCombDelayMs := by
    norm_num [meanCombDelayMs, schroederCombDelaysMs]
  have hq0 : (0 : ℚ) ≤ fs * meanCombDelayMs / 1000 :=
    div_nonneg (mul_nonneg hfs hm) (by norm_num)
  unfold avgCombDelaySamples
  rw [pyInt_eq_floor _ hq0]
  exact_mod_cast Int.floor_nonneg.mpr hq0

/-- C2: `schroeder_reverb` derives its comb feedback gain as
`g = min(10 ^ (-3*D_avg/(decay_sec*fs)), 0.98)` where `D_avg` is the
(truncated) mean comb delay in samples and `decay_sec = decay_ms/1000`
(the exponent is `schroederGainExponent`, lines 138-141 of the source);
for every `fs > 0` and `decay_ms > 0` this gain satisfies
`0 < g ≤ 0.98`, and the unclamped power never exceeds 1. -/
theorem schroeder_feedback_gain_bounds (fs decayMs : ℚ) (hfs : 0 < fs)
    (hdec : 0 < decayMs) :
    0 < min ((10 : ℝ) ^ ((schroederGainExponent fs decayMs : ℚ) : ℝ))
        (49 / 50) ∧
    min ((10 : ℝ) ^ ((schroederGainExponent fs decayMs : ℚ) : ℝ)) (49 / 50) ≤
      49 / 50 ∧
    (10 : ℝ) ^ ((schroederGainExponent fs decayMs : ℚ) : ℝ) ≤ 1 := by
  have hA := avgCombDelaySamples_nonneg fs hfs.le
  have hden : (0 : ℚ) < decayMs / 1000 * fs :=
    mul_pos (div_pos hdec (by norm_num)) hfs
  have hnum : -3 * (avgCombDelaySamples fs : ℚ) ≤ 0 := by nlinarith
  have hq : schroederGainExponent fs decayMs ≤ 0 := by
    unfold schroederGainExponent
    exact div_nonpos_of_nonpos_of_nonneg hnum hden.le
  have hqr : ((schroederGainExponent fs decayMs : ℚ) : ℝ) ≤ 0 := by
    exact_mod_cast hq
  refine ⟨lt_min (Real.rpow_pos_of_pos (by norm_num) _) (by norm_num),
    min_le_right _ _, ?_⟩
  exact Real.rpow_le_one_of_one_le_of_nonpos (by norm_num) hqr

/-- Witness for C2 at `fs = 44100`, `decay_ms = 2000`. -/
theorem schroeder_feedback_gain_bounds_witness :
    (0 : ℚ) < 44100 ∧ (0 : ℚ) < 2000 ∧
    (0 < min ((10 : ℝ) ^ ((schroederGainExponent 44100 2000 : ℚ) : ℝ))
        (49 / 50) ∧
      min ((10 : ℝ) ^ ((schroederGainExponent 44100 2000 : ℚ) : ℝ)) (49 / 50) ≤
        49 / 50 ∧
      (10 : ℝ) ^ ((schroederGainExponent 44100 2000 : ℚ) : ℝ) ≤ 1) :=
  ⟨by norm_num, by norm_num,
    schroeder_feedback_gain_bounds 44100 2000 (by norm_num) (by norm_num)⟩

/-- C7 counterexample: at `fs = 1000`, `ms = 29.7` the source's
conversion `int(fs * ms / 1000)` yields 29, not
`round(fs * ms / 1000) = 30`; the conversion is truncation, not
rounding to nearest. -/
theorem msToSamples_not_round :
    msToSamples 1000 (297 / 10) ≠ round ((1000 : ℚ) * ((297 / 10) / 1000)) := by
  have h1 : msToSamples 1000 (297 / 10) = 29 := by
    unfold msToSamples
    rw [pyInt_eq_floor _ (by norm_num), Int.floor_eq_iff]
    norm_num
  have h2 : round ((1000 : ℚ) * ((297 / 10) / 1000)) = 30 := by
    rw [round_eq]
    rw [Int.floor_eq_iff]
    norm_num
  rw [h1, h2]
  decide

/-- C7 amended: every millisecond value is converted to samples by
Python `int()`, which on the nonnegative times used by the engine is
the floor `⌊fs * ms / 1000⌋` (truncation toward zero), not rounding to
the nearest integer. -/
theorem msToSamples_eq_floor (fs ms : ℚ) (hfs : 0 ≤ fs) (hms : 0 ≤ ms) :
    msToSamples fs ms = ⌊fs * (ms / 1000)⌋ := by
  unfold msToSamples
  exact pyInt_eq_floor _ (mul_nonneg hfs (div_nonneg hms (by norm_num)))

/-- Witness for the amended C7 at `fs = 44100`, `ms = 500`. -/
theorem msToSamples_eq_floor_witness :
    (0 : ℚ) ≤ 44100 ∧ (0 : ℚ) ≤ 500 ∧
    msToSamples 44100 500 = ⌊(44100 : ℚ) * (500 / 1000)⌋ :=
  ⟨by norm_num, by norm_num, msToSamples_eq_floor 44100 500 (by norm_num)
    (by norm_num)⟩

/-- C9: the peak normalization of the engines and the DelayV1 variant
are both idempotent: after one application the peak is at most 1, so a
second application leaves every sample unchanged. -/
theorem normalization_idempotent (l : List ℚ) :
    normalizePeak (normalizePeak l) = normalizePeak l ∧
    normalizeV1 (normalizeV1 l) = normalizeV1 l := by
  have hidem : normalizePeak (normalizePeak l) = normalizePeak l :=
    normalizePeak_of_le _ (maxAbs_normalizePeak_le_one l)
  refine ⟨hidem, ?_⟩
  rw [normalizeV1_eq_normalizePeak, normalizeV1_eq_normalizePeak]
  exact hidem

theorem apply_multi_tap_delay_shape (dbToLin : ℚ → ℚ) (input : List ℚ)
    (fs dryMix : ℚ) (taps : List (ℚ × ℚ)) (out : List ℚ)
    (h : apply_multi_tap_delay dbToLin input fs taps dryMix = some out) :
    ∃ s, out = normalizePeak s := by
  unfold apply_multi_tap_delay at h
  cases hmax : listMax (taps.map (·.1)) with
  | none => rw [hmax] at h; simp at h
  | some m =>
    rw [hmax] at h
    simp only [Option.some.injEq] at h
    exact ⟨_, h.symm⟩

theorem apply_multi_instance_reverb_shape (dbToLin : ℚ → ℚ)
    (fbGainOf : ℚ → ℚ → ℚ) (input : List ℚ) (fs dryMix tailFactor : ℚ)
    (gates : List (ℚ × ℚ)) (out : List ℚ)
    (h : apply_multi_instance_reverb dbToLin fbGainOf input fs gates dryMix
      tailFactor = some out) :
    ∃ s, out = normalizePeak s := by
  unfold apply_multi_instance_reverb at h
  cases hmax : listMax (gates.map (·.1)) with
  | none => rw [hmax] at h; simp at h
  | some m =>
    rw [hmax] at h
    simp only [Option.some.injEq] at h
    exact ⟨_, h.symm⟩

/-- C3: the multi-tap delay and the multi-instance reverb both end in
the peak normalization, so whenever they return a buffer its peak
absolute amplitude is at most 1; the normalization itself leaves a
buffer with peak at most 1 unscaled, and scales a buffer with peak
above 1 by the reciprocal peak, pulling the largest excursion exactly
to unity. -/
theorem process_output_peak_normalized (dbToLin : ℚ → ℚ)
    (fbGainOf : ℚ → ℚ → ℚ) (input : List ℚ) (fs dryMix tailFactor : ℚ)
    (taps gates : List (ℚ × ℚ)) (l outD outR : List ℚ)
    (hD : apply_multi_tap_delay dbToLin input fs taps dryMix = some outD)
    (hR : apply_multi_instance_reverb dbToLin fbGainOf input fs gates dryMix
      tailFactor = some outR) :
    maxAbs outD ≤ 1 ∧ maxAbs outR ≤ 1 ∧
    maxAbs (normalizePeak l) ≤ 1 ∧
    (maxAbs l ≤ 1 → normalizePeak l = l) ∧
    (1 < maxAbs l →
      normalizePeak l = l.map (· / maxAbs l) ∧
        maxAbs (normalizePeak l) = 1) := by
  obtain ⟨sD, hsD⟩ :=
    apply_multi_tap_delay_shape dbToLin input fs dryMix taps outD hD
  obtain ⟨sR, hsR⟩ := apply_multi_instance_reverb_shape dbToLin fbGainOf input
    fs dryMix tailFactor gates outR hR
  refine ⟨hsD ▸ maxAbs_normalizePeak_le_one sD,
    hsR ▸ maxAbs_normalizePeak_le_one sR,
    maxAbs_normalizePeak_le_one l,
    normalizePeak_of_le l,
    fun hgt => ⟨normalizePeak_of_gt l hgt, maxAbs_normalizePeak_eq_one l hgt⟩⟩

theorem eval_multi_tap_small :
    apply_multi_tap_delay linGainOne [1] 2 [(0, 0)] 1 = some [1, 0] := by
  have ht : (delayTailSamples 2 0).toNat = 1 := by
    unfold delayTailSamples
    rw [pyInt_eq_floor _ (by norm_num)]
    norm_num
  have hs : (msToSamples 2 0).toNat = 0 := by
    unfold msToSamples
    rw [pyInt_eq_floor _ (by norm_num)]
    norm_num
  unfold apply_multi_tap_delay
  norm_num [listMax, ht, hs, addInto, normalizePeak, maxAbs, linGainOne, nth]

theorem msToSamples_two_small (ms : ℚ) (h0 : 0 ≤ ms) (h1 : ms < 500) :
    msToSamples 2 ms = 0 := by
  unfold msToSamples
  rw [pyInt_eq_floor _ (mul_nonneg (by norm_num) (div_nonneg h0 (by norm_num)))]
  rw [Int.floor_eq_iff]
  constructor
  · push_cast
    nlinarith
  · push_cast
    nlinarith

theorem eval_multi_reverb_small :
    apply_multi_instance_reverb linGainOne fbGainHalf [1] 2 [(100, 0)] 1 0 =
      some [1] := by
  have h1 := msToSamples_two_small (297 / 10) (by norm_num) (by norm_num)
  have h2 := msToSamples_two_small (371 / 10) (by norm_num) (by norm_num)
  have h3 := msToSamples_two_small (411 / 10) (by norm_num) (by norm_num)
  have h4 := msToSamples_two_small (437 / 10) (by norm_num) (by norm_num)
  have h5 := msToSamples_two_small 5 (by norm_num) (by norm_num)
  have h6 := msToSamples_two_small (17 / 10) (by norm_num) (by norm_num)
  have ht : (reverbTailSamples 2 100 0).toNat = 0 := by
    unfold reverbTailSamples
    rw [pyInt_eq_floor _ (by norm_num)]
    norm_num
  unfold apply_multi_instance_reverb
  norm_num [listMax, ht, schroeder_reverb, parallel_comb_filters,
    serial_allpass_filters, schroederCombDelaysMs, schroederAllpassDelaysMs,
    npClip, h1, h2, h3, h4, h5, h6, addInto, normalizePeak, maxAbs,
    linGainOne, fbGainHalf]

/-- Witness for C3: a one-sample input through both engines, and a
buffer with peak 2 for the normalization clauses. -/
theorem process_output_peak_normalized_witness :
    apply_multi_tap_delay linGainOne [1] 2 [(0, 0)] 1 = some [1, 0] ∧
    apply_multi_instance_reverb linGainOne fbGainHalf [1] 2 [(100, 0)] 1 0 =
      some [1] ∧
    (maxAbs [1, 0] ≤ 1 ∧ maxAbs [1] ≤ 1 ∧
      maxAbs (normalizePeak [(2 : ℚ)]) ≤ 1 ∧
      (maxAbs [(2 : ℚ)] ≤ 1 → normalizePeak [(2 : ℚ)] = [(2 : ℚ)]) ∧
      (1 < maxAbs [(2 : ℚ)] →
        normalizePeak [(2 : ℚ)] =
            [(2 : ℚ)].map (· / maxAbs [(2 : ℚ)]) ∧
          maxAbs (normalizePeak [(2 : ℚ)]) = 1)) :=
  ⟨eval_multi_tap_small, eval_multi_reverb_small,
    process_output_peak_normalized linGainOne fbGainHalf [1] 2 1 0 [(0, 0)]
      [(100, 0)] [(2 : ℚ)] [1, 0] [1] eval_multi_tap_small
      eval_multi_reverb_small⟩

/-- C4 (code bug): called with an empty tap list or an empty gate
list, both engine functions hit Python's `max([])`, which raises
`ValueError` (`none` in this model) instead of the pass-through the
specification requires. -/
theorem empty_gate_lists_error :
    apply_multi_tap_delay linGainOne [1] 44100 [] 1 = none ∧
    apply_multi_instance_reverb linGainOne fbGainHalf [1] 44100 [] 1 (2 / 5) =
      none := by
  exact ⟨rfl, rfl⟩

/-- Witness for C1 at a four-sample input, `D = 2`, `g = 1/2`. -/
theorem comb_allpass_circular_buffer_correct_witness :
    1 ≤ 2 ∧
    ((((comb_filter [1, 0, 1, 0] 2 (1 / 2)).length =
          ([1, 0, 1, 0] : List ℚ).length) ∧
        ∀ n, n < ([1, 0, 1, 0] : List ℚ).length →
          nth (comb_filter [1, 0, 1, 0] 2 (1 / 2)) n =
            nth [1, 0, 1, 0] n +
              1 / 2 *
                (if 2 ≤ n then nth (comb_filter [1, 0, 1, 0] 2 (1 / 2)) (n - 2)
                else 0)) ∧
      (((allpass_filter [1, 0, 1, 0] 2 (1 / 2)).length =
          ([1, 0, 1, 0] : List ℚ).length) ∧
        ∀ n, n < ([1, 0, 1, 0] : List ℚ).length →
          nth (allpass_filter [1, 0, 1, 0] 2 (1 / 2)) n =
            -(1 / 2) * nth [1, 0, 1, 0] n +
              ((if 2 ≤ n then nth [1, 0, 1, 0] (n - 2) else 0) +
                1 / 2 *
                  (if 2 ≤ n then
                    nth (allpass_filter [1, 0, 1, 0] 2 (1 / 2)) (n - 2)
                  else 0)))) :=
  ⟨by norm_num,
    comb_allpass_circular_buffer_correct [1, 0, 1, 0] 2 (1 / 2) (by norm_num)⟩

/-- C10: in `apply_multi_tap_delay`, for every positive sample rate and
every nonempty tap list with nonnegative times, each tap's shift
satisfies `shift + len(input) ≤ len(output)` — the tail includes the
maximum tap delay plus half a second of samples — so the unguarded
slice addition `output[shift : shift + len(input)] += input * gain`
never exceeds the output buffer's bounds. -/
theorem tap_shift_within_bounds (dbToLin : ℚ → ℚ) (input : List ℚ)
    (fs dryMix maxMs : ℚ) (taps : List (ℚ × ℚ)) (out : List ℚ)
    (hfs : 0 < fs)
    (hmax : listMax (taps.map (·.1)) = some maxMs)
    (hnn : ∀ t ∈ taps, 0 ≤ t.1)
    (hout : apply_multi_tap_delay dbToLin input fs taps dryMix = some out) :
    ∀ t ∈ taps, (msToSamples fs t.1).toNat + input.length ≤ out.length := by
  obtain ⟨out2, hsome, hlen⟩ :=
    apply_multi_tap_delay_some dbToLin input fs taps dryMix maxMs hmax
  have heq : out2 = out := Option.some.inj (hsome.symm.trans hout)
  subst heq
  intro t ht
  have htle : t.1 ≤ maxMs :=
    listMax_is_ub _ maxMs hmax t.1 (List.mem_map_of_mem _ ht)
  have h0t : 0 ≤ t.1 := hnn t ht
  have h0m : 0 ≤ maxMs := le_trans h0t htle
  have hint : msToSamples fs t.1 ≤ delayTailSamples fs maxMs := by
    unfold msToSamples delayTailSamples
    rw [pyInt_eq_floor _ (mul_nonneg hfs.le (div_nonneg h0t (by norm_num))),
      pyInt_eq_floor _
        (add_nonneg (mul_nonneg hfs.le (div_nonneg h0m (by norm_num)))
          (mul_nonneg hfs.le (by norm_num)))]
    apply Int.floor_le_floor
    nlinarith [mul_nonneg hfs.le
      (div_nonneg (sub_nonneg.mpr htle) (by norm_num : (0 : ℚ) ≤ 1000))]
  have htn : (msToSamples fs t.1).toNat ≤ (delayTailSamples fs maxMs).toNat :=
    Int.toNat_le_toNat hint
  omega

/-- Witness for C10 at `fs = 2`, one tap at time 0. -/
theorem tap_shift_within_bounds_witness :
    (0 : ℚ) < 2 ∧
    listMax ([((0 : ℚ), (0 : ℚ))].map (·.1)) = some 0 ∧
    (∀ t ∈ [((0 : ℚ), (0 : ℚ))], 0 ≤ t.1) ∧
    apply_multi_tap_delay linGainOne [1] 2 [(0, 0)] 1 = some [1, 0] ∧
    ∀ t ∈ [((0 : ℚ), (0 : ℚ))],
      (msToSamples 2 t.1).toNat + ([(1 : ℚ)] : List ℚ).length ≤
        ([(1 : ℚ), 0] : List ℚ).length :=
  ⟨by norm_num, rfl, by simp, eval_multi_tap_small,
    tap_shift_within_bounds linGainOne [1] 2 1 0 [(0, 0)] [1, 0] (by norm_num)
      rfl (by simp) eval_multi_tap_small⟩

theorem le_npClip (a lo hi : ℚ) (h : lo ≤ hi) : lo ≤ npClip a lo hi :=
  le_min (le_max_right a lo) h

theorem npClip_le (a lo hi : ℚ) : npClip a lo hi ≤ hi :=
  min_le_right _ _

/-- C8: the parameter mappers are total and never reject an input: both
clamp the normalized coordinates to `[0, 1]`, the delay mapper returns
`time_ms ∈ [0, 4000]` and the reverb mapper `decay_ms ∈ [0, 10000]`,
both return `gain_db ∈ [minGainDb, maxGainDb]` (defaults `[-60, 3.5]`
and `[-60, 0]`), and `gain_db = minGainDb` whenever the computed volume
percentage is at most 0.1 — for every choice of the `log10` routine. -/
theorem figma_mapper_total_and_clamped (log10 : ℚ → ℚ) (x y frameW frameH : ℚ)
    (hw : 0 < frameW) (hh : 0 < frameH) :
    (0 ≤ (figma_to_delay_params log10 x y frameW frameH 4000 (7 / 2) (-60)).1 ∧
      (figma_to_delay_params log10 x y frameW frameH 4000 (7 / 2) (-60)).1 ≤
        4000 ∧
      -60 ≤ (figma_to_delay_params log10 x y frameW frameH 4000 (7 / 2) (-60)).2 ∧
      (figma_to_delay_params log10 x y frameW frameH 4000 (7 / 2) (-60)).2 ≤
        7 / 2 ∧
      ((1 - npClip (y / frameH) 0 1) * 150 ≤ 1 / 10 →
        (figma_to_delay_params log10 x y frameW frameH 4000 (7 / 2) (-60)).2 =
          -60)) ∧
    (0 ≤ (figma_to_reverb_params log10 x y frameW frameH 10000 0 (-60)).1 ∧
      (figma_to_reverb_params log10 x y frameW frameH 10000 0 (-60)).1 ≤
        10000 ∧
      -60 ≤ (figma_to_reverb_params log10 x y frameW frameH 10000 0 (-60)).2 ∧
      (figma_to_reverb_params log10 x y frameW frameH 10000 0 (-60)).2 ≤ 0 ∧
      ((1 - npClip (y / frameH) 0 1) * 100 ≤ 1 / 10 →
        (figma_to_reverb_params log10 x y frameW frameH 10000 0 (-60)).2 =
          -60)) := by
  have hx0 : 0 ≤ npClip (x / frameW) 0 1 := le_npClip _ 0 1 (by norm_num)
  have hx1 : npClip (x / frameW) 0 1 ≤ 1 := npClip_le _ 0 1
  constructor
  · unfold figma_to_delay_params
    refine ⟨mul_nonneg hx0 (by norm_num), ?_, ?_, ?_, ?_⟩
    · calc npClip (x / frameW) 0 1 * 4000 ≤ 1 * 4000 :=
          mul_le_mul_of_nonneg_right hx1 (by norm_num)
        _ = 4000 := by norm_num
    · dsimp only
      split
      · exact le_refl _
      · exact le_npClip _ _ _ (by norm_num)
    · dsimp only
      split
      · norm_num
      · exact npClip_le _ _ _
    · intro hvp
      dsimp only
      rw [if_pos hvp]
  · unfold figma_to_reverb_params
    refine ⟨mul_nonneg hx0 (by norm_num), ?_, ?_, ?_, ?_⟩
    · calc npClip (x / frameW) 0 1 * 10000 ≤ 1 * 10000 :=
          mul_le_mul_of_nonneg_right hx1 (by norm_num)
        _ = 10000 := by norm_num
    · dsimp only
      split
      · exact le_refl _
      · exact le_npClip _ _ _ (by norm_num)
    · dsimp only
      split
      · norm_num
      · exact npClip_le _ _ _
    · intro hvp
      dsimp only
      rw [if_pos hvp]

/-- Witness for C8 at a frame of 1000 by 800 and the gate at (500, 100). -/
theorem figma_mapper_total_and_clamped_witness :
    (0 : ℚ) < 1000 ∧ (0 : ℚ) < 800 ∧
    ((0 ≤ (figma_to_delay_params log10Zero 500 100 1000 800 4000 (7 / 2)
          (-60)).1 ∧
      (figma_to_delay_params log10Zero 500 100 1000 800 4000 (7 / 2)
          (-60)).1 ≤ 4000 ∧
      -60 ≤ (figma_to_delay_params log10Zero 500 100 1000 800 4000 (7 / 2)
          (-60)).2 ∧
      (figma_to_delay_params log10Zero 500 100 1000 800 4000 (7 / 2)
          (-60)).2 ≤ 7 / 2 ∧
      ((1 - npClip ((100 : ℚ) / 800) 0 1) * 150 ≤ 1 / 10 →
        (figma_to_delay_params log10Zero 500 100 1000 800 4000 (7 / 2)
            (-60)).2 = -60)) ∧
    (0 ≤ (figma_to_reverb_params log10Zero 500 100 1000 800 10000 0
          (-60)).1 ∧
      (figma_to_reverb_params log10Zero 500 100 1000 800 10000 0
          (-60)).1 ≤ 10000 ∧
      -60 ≤ (figma_to_reverb_params log10Zero 500 100 1000 800 10000 0
          (-60)).2 ∧
      (figma_to_reverb_params log10Zero 500 100 1000 800 10000 0
          (-60)).2 ≤ 0 ∧
      ((1 - npClip ((100 : ℚ) / 800) 0 1) * 100 ≤ 1 / 10 →
        (figma_to_reverb_params log10Zero 500 100 1000 800 10000 0
            (-60)).2 = -60))) :=
  ⟨by norm_num, by norm_num,
    figma_mapper_total_and_clamped log10Zero 500 100 1000 800 (by norm_num)
      (by norm_num)⟩

/-- C5 counterexample: `apply_multi_instance_reverb` given only a gate
below the -50 dB floor (here -60 dB, `decay_ms = 111`, `fs = 1000`,
`tail_factor = 0.4`) does not return the input unchanged: it still
allocates the tail for that gate, so the output is 44 samples longer
than the input. (At these inputs the parameterized conversions are
exact: `10^(-60/20) = 1/1000` and the RT60 gain is `10^(-1) = 1/10`.) -/
theorem below_floor_gate_not_identity :
    apply_multi_instance_reverb linGainMilli fbGainTenth [1, 0] 1000
      [(111, -60)] 1 (2 / 5) ≠ some [1, 0] := by
  intro hcontra
  obtain ⟨out2, hsome, hlen⟩ := apply_multi_instance_reverb_some linGainMilli
    fbGainTenth [1, 0] 1000 [(111, -60)] 1 (2 / 5) 111 rfl
  have heq : out2 = [1, 0] := Option.some.inj (hsome.symm.trans hcontra)
  rw [heq] at hlen
  have htail : (reverbTailSamples 1000 111 (2 / 5)).toNat = 44 := by
    unfold reverbTailSamples
    rw [pyInt_eq_floor _ (by norm_num)]
    have hfl : ⌊(1000 : ℚ) * (111 / 1000) * (2 / 5)⌋ = 44 := by
      rw [Int.floor_eq_iff] <;> norm_num
    rw [hfl]
    rfl
  rw [htail] at hlen
  simp at hlen

/-- C5 amended: the audibility-floor filtering lives in the GUI wrapper
`apply_reverb_dsp` (fushimi_plugin_demo.py lines 289-293), not in
`apply_multi_instance_reverb`: the wrapper keeps only gates with
`gain_db > -50` and returns the input unchanged when none survive, so
no reverb instance runs for a below-floor gate on that path. -/
theorem reverb_dsp_filters_below_floor (dbToLin : ℚ → ℚ)
    (fbGainOf : ℚ → ℚ → ℚ) (input : List ℚ)
    (fs dryMix wetMix tailFactor : ℚ) (gates : List (ℚ × ℚ))
    (hfloor : ∀ g ∈ gates, g.2 ≤ -50) :
    apply_reverb_dsp dbToLin fbGainOf input fs gates dryMix wetMix
      tailFactor = some input := by
  unfold apply_reverb_dsp
  have hempty : gates.filter (fun g => -50 < g.2) = [] := by
    rw [List.filter_eq_nil]
    intro g hg
    simp only [decide_eq_true_eq, not_lt]
    exact hfloor g hg
  rw [hempty]
  rfl

/-- Witness for the amended C5: one gate at -60 dB is filtered out and
the input passes through unchanged. -/
theorem reverb_dsp_filters_below_floor_witness :
    (∀ g ∈ [((100 : ℚ), (-60 : ℚ))], g.2 ≤ -50) ∧
    apply_reverb_dsp linGainMilli fbGainTenth [1] 1000 [(100, -60)] 1 1
      (2 / 5) = some [1] :=
  ⟨by intro g hg; rw [List.mem_singleton] at hg; subst hg; norm_num,
    reverb_dsp_filters_below_floor linGainMilli fbGainTenth [1] 1000 1 1
      (2 / 5) [(100, -60)]
      (by intro g hg; rw [List.mem_singleton] at hg; subst hg; norm_num)⟩

theorem nth_dry_base (input : List ℚ) (d : ℚ) (T : ℕ) (i : ℕ) :
    nth (addInto (List.replicate T 0) 0 (input.map (· * d))) i =
      if i < input.length ∧ i < T then nth input i * d else 0 := by
  rw [nth_addInto, nth_replicate, zero_add, Nat.sub_zero]
  simp only [List.length_map, List.length_replicate, Nat.zero_le, true_and,
    Nat.zero_add]
  by_cases hc : i < input.length ∧ i < T
  · rw [if_pos hc, if_pos hc, nth_map_mul]
  · rw [if_neg hc, if_neg hc]

theorem foldl_wet_zero (dbToLin : ℚ → ℚ) (input : List ℚ) (fs : ℚ) (T : ℕ) :
    ∀ (taps : List (ℚ × ℚ)) (acc : List ℚ),
      taps.foldl
        (fun acc tap =>
          let gain := dbToLin tap.2 * 0
          let shift := (msToSamples fs tap.1).toNat
          if shift + input.length < T then
            addInto acc shift (input.map (· * gain))
          else acc) acc = acc := by
  intro taps
  induction taps with
  | nil => intro acc; rfl
  | cons t ts ih =>
    intro acc
    rw [List.foldl_cons]
    have hz : ∀ v ∈ input.map (· * (dbToLin t.2 * 0)), v = 0 := by
      intro v hv
      obtain ⟨w, _, rfl⟩ := List.mem_map.mp hv
      rw [mul_zero, mul_zero]
    dsimp only
    split
    · rw [addInto_of_zero _ _ _ hz]
      exact ih acc
    · exact ih acc

/-- C6 amended, DelayV1 part: in `ToriDelayPlugin.apply_dsp` the master
wet mix scales only the tap gains, so with `wetMix = 0` every tap
contributes zero; provided the dry-scaled input peaks at most 1 (so the
final normalization does not rescale), the first `len(input)` output
samples equal `input * dryMix` and every tail sample is zero. -/
theorem delayV1_wet_zero_dry_only (dbToLin : ℚ → ℚ) (input : List ℚ)
    (fs : ℚ) (taps : List (ℚ × ℚ)) (dryMix : ℚ)
    (hpk : maxAbs (input.map (· * dryMix)) ≤ 1) :
    (∀ i, i < input.length →
      nth (apply_dsp dbToLin input fs taps dryMix 0) i =
        nth input i * dryMix) ∧
    (∀ i, input.length ≤ i →
      nth (apply_dsp dbToLin input fs taps dryMix 0) i = 0) := by
  have key : apply_dsp dbToLin input fs taps dryMix 0 =
      normalizeV1 (addInto
        (List.replicate
          (input.length +
            (delayV1TailSamples fs
              (match listMax (taps.map (·.1)) with
                | none => 0
                | some m => m)).toNat) 0)
        0 (input.map (· * dryMix))) := by
    unfold apply_dsp
    simp only [foldl_wet_zero]
  have hble : maxAbs (addInto
      (List.replicate
        (input.length +
          (delayV1TailSamples fs
            (match listMax (taps.map (·.1)) with
              | none => 0
              | some m => m)).toNat) 0)
      0 (input.map (· * dryMix))) ≤ 1 := by
    apply maxAbs_le_of_forall_nth _ _ (by norm_num)
    intro n
    rw [nth_dry_base]
    by_cases hc : n < input.length ∧
        n < input.length +
          (delayV1TailSamples fs
            (match listMax (taps.map (·.1)) with
              | none => 0
              | some m => m)).toNat
    · rw [if_pos hc, ← nth_map_mul]
      exact le_trans (abs_nth_le_maxAbs _ n) hpk
    · rw [if_neg hc]
      norm_num
  have hid : apply_dsp dbToLin input fs taps dryMix 0 =
      addInto
        (List.replicate
          (input.length +
            (delayV1TailSamples fs
              (match listMax (taps.map (·.1)) with
                | none => 0
                | some m => m)).toNat) 0)
        0 (input.map (· * dryMix)) := by
    rw [key, normalizeV1_eq_normalizePeak, normalizePeak_of_le _ hble]
  constructor
  · intro i hi
    rw [hid, nth_dry_base, if_pos ⟨hi, by omega⟩]
  · intro i hi
    rw [hid, nth_dry_base, if_neg (by omega)]

/-- Witness for the amended C6: one tap, `dryMix = 1`, `wetMix = 0`. -/
theorem delayV1_wet_zero_dry_only_witness :
    maxAbs ([(1 : ℚ) / 2].map (· * 1)) ≤ 1 ∧
    ((∀ i, i < ([(1 : ℚ) / 2] : List ℚ).length →
        nth (apply_dsp linGainOne [1 / 2] 2 [(0, 0)] 1 0) i =
          nth [1 / 2] i * 1) ∧
      (∀ i, ([(1 : ℚ) / 2] : List ℚ).length ≤ i →
        nth (apply_dsp linGainOne [1 / 2] 2 [(0, 0)] 1 0) i = 0)) :=
  ⟨by norm_num [maxAbs, abs_of_nonneg],
    delayV1_wet_zero_dry_only linGainOne [1 / 2] 2 [(0, 0)] 1
      (by norm_num [maxAbs, abs_of_nonneg])⟩

/-- C6 counterexample: `FushimiInAiry.process_audio` multiplies the
whole returned buffer — dry signal included — by `wet_mix` (line 172),
so with `wetMix = 0` and `dryMix = 1` the output is all zeros: its
first sample is 0, not `input[0] * dryMix = 1/2`. -/
theorem wet_zero_zeroes_facade_output :
    process_audio_delay linGainOne [1 / 2] 2 [(0, 0)] 1 0 = some [0, 0] ∧
    nth [(0 : ℚ), 0] 0 ≠ nth [(1 : ℚ) / 2] 0 * 1 := by
  constructor
  · have ht : (delayTailSamples 2 0).toNat = 1 := by
      unfold delayTailSamples
      rw [pyInt_eq_floor _ (by norm_num)]
      norm_num
    have hs := msToSamples_two_small 0 (by norm_num) (by norm_num)
    have hinner : apply_multi_tap_delay linGainOne [1 / 2] 2 [(0, 0)] 1 =
        some [1, 0] := by
      unfold apply_multi_tap_delay
      norm_num [listMax, ht, hs, addInto, normalizePeak, maxAbs, linGainOne,
        nth]
    unfold process_audio_delay
    rw [if_neg (by simp : ¬([((0 : ℚ), (0 : ℚ))].isEmpty = true)), hinner]
    simp
  · rw [nth_cons_zero, nth_cons_zero]
    norm_num
